import Mathlib

/-!
Shallow embedding of `assembly2.py` (ShareYourCloning backend): the overlap-graph
builder (`add_edges_from_match`), the `Assembly` facade with its validation
(`validate_assembly`), sub-assembly removal (`remove_subassemblies`), enumeration
(`get_linear_assemblies`, `get_circular_assemblies`) and materialization
(`assemble`), together with theorems settling the frozen claims about them.

External collaborators (pydna location utilities, Biopython locations/
reverse-complement, networkx path/cycle primitives) are out of scope of the
repository and are modelled from the spec where marked below.

Conventions:
- A Biopython location is a nonempty list of parts `[start:end](strand)`;
  we model it as `Loc := List SimpleLoc` with integer coordinates.
- A networkx multigraph edge `(u, v, key)` with its `locations` attribute is
  modelled as `(u, v, (loc0, loc1))`: the string key `f'{u}{l[0]}:{v}{l[1]}'`
  is determined by, and determines, `(u, v, l[0], l[1])`, because printing a
  location is injective on its parts, so we carry the location pair as the key.
- Python exceptions (KeyError on a missing edge, IndexError on an empty list)
  are modelled by `Option`: `none` means the call raises.
-/

/-- One part of a Biopython location: `[start:stop](strand)`. -/
structure SimpleLoc where
  start : Int
  stop : Int
  strand : Int
deriving DecidableEq, Repr

/-- A (possibly compound) location: its list of parts. Real locations are nonempty. -/
abbrev Loc := List SimpleLoc

/-- Biopython `len(location)`: the sum of the part lengths. -/
def locLen (l : Loc) : Int := (l.map (fun p => p.stop - p.start)).sum

/-- Biopython `SeqFeature._shift` / `SimpleLocation + d`: translate by `d`, no wrapping. -/
def locShift (d : Int) (l : Loc) : Loc := l.map (fun p => ⟨p.start + d, p.stop + d, p.strand⟩)

/-- Biopython `location._flip(total)`: each part becomes `[total-stop, total-start]` with
the strand inverted, and the parts are listed in reversed order. -/
def locFlip (l : Loc) (total : Int) : Loc :=
  (l.map (fun p => ⟨total - p.stop, total - p.start, -p.strand⟩)).reverse

/-- Modelled from the spec (section 4.1 `shift_and_wrap`): the external
`pydna.utils.shift_location`. Each part is translated by `shift` modulo `total`;
a part that would run past `total` is split into the two wrapped ranges. -/
def shift_location (l : Loc) (shift : Int) (total : Int) : Loc :=
  l.flatMap fun p =>
    let ns : Int := (p.start + shift) % total
    let ne : Int := ns + (p.stop - p.start)
    if ne ≤ total then [⟨ns, ne, p.strand⟩]
    else [⟨ns, total, p.strand⟩, ⟨0, ne - total, p.strand⟩]

/-- Python index normalization for a slice bound on a sequence of length `n`. -/
def pyIdx (n : Nat) (i : Int) : Nat :=
  if i < 0 then (max 0 ((n : Int) + i)).toNat else min i.toNat n

/-- Python slice `s[a:b]` (`b = none` meaning the bound is omitted). -/
def pySlice (s : List Char) (a : Int) (b : Option Int) : List Char :=
  let lo := pyIdx s.length a
  let hi := match b with
    | none => s.length
    | some b => pyIdx s.length b
  (s.take hi).drop lo

/-- A pydna `Dseqrecord`: a sequence of symbols, a circularity flag and a list of
feature (annotation) locations. Only the location of a feature matters here. -/
structure Dseqrecord where
  seq : List Char
  circular : Bool
  features : List Loc
deriving DecidableEq, Repr

/-- Complement of a nucleotide character, case preserved; other characters unchanged. -/
def complementChar (c : Char) : Char :=
  if c = 'A' then 'T' else if c = 'T' then 'A'
  else if c = 'G' then 'C' else if c = 'C' then 'G'
  else if c = 'a' then 't' else if c = 't' then 'a'
  else if c = 'g' then 'c' else if c = 'c' then 'g' else c

/-- `Bio.Seq.reverse_complement` on a plain string. -/
def reverse_complement (s : List Char) : List Char := (s.map complementChar).reverse

/-- Python `str.upper()` on a sequence string. -/
def upperStr (s : List Char) : List Char := s.map Char.toUpper

/-- Modelled from the spec (sections 3 and 6): `Dseqrecord.reverse_complement` —
the sequence is reverse-complemented and every feature location is flipped. -/
def recordRC (r : Dseqrecord) : Dseqrecord :=
  ⟨reverse_complement r.seq, r.circular, r.features.map (fun l => locFlip l (r.seq.length : Int))⟩

/-- Modelled from the spec (section 6): `Dseqrecord` slicing `r[a:b]` — a new linear
record holding the sliced sequence, retaining the features that lie fully inside
the slice, shifted to the slice's coordinates. -/
def recordSlice (r : Dseqrecord) (a : Int) (b : Option Int) : Dseqrecord :=
  let lo := pyIdx r.seq.length a
  let hi := match b with
    | none => r.seq.length
    | some b => pyIdx r.seq.length b
  { seq := (r.seq.take hi).drop lo,
    circular := false,
    features :=
      (r.features.filter
        (fun l => l.all (fun p => decide ((lo : Int) ≤ p.start ∧ p.stop ≤ (hi : Int))))).map
        (locShift (-(lo : Int))) }

/-- The `locations` attribute of a graph edge: the overlap's span in the source
node's sequence and in the target node's sequence. It also determines the
networkx string key of the edge. -/
abbrev EdgeKey := Loc × Loc

/-- A multigraph edge `(u, v, key)`. -/
abbrev Edge3 := Int × Int × EdgeKey

/-- A candidate assembly: the ordered tuple of graph edges. -/
abbrev Asm := List Edge3

instance : DecidableEq Edge3 := inferInstance

instance : DecidableEq Asm := inferInstance

instance : DecidableEq (List Asm) := inferInstance

instance : DecidableEq (Option (List Asm)) := inferInstance

/-- The networkx `MultiDiGraph` of the Assembly: nodes carry their `'seq'` record. -/
structure MultiDiGraph where
  nodes : List (Int × Dseqrecord)
  edges : List Edge3
deriving DecidableEq, Repr

/-- networkx `G.add_edge(u, v, key, locations=...)`: a fresh `(u, v, key)` is appended;
re-adding an existing key only overwrites its (identical) attributes. -/
def add_edge (g : MultiDiGraph) (e : Edge3) : MultiDiGraph :=
  if e ∈ g.edges then g else { g with edges := g.edges ++ [e] }

/-- networkx `G[u][v][key]['locations']`: `none` models the KeyError raised when the
edge is absent; the locations of a present edge are carried by its key. -/
def lookupLocs (g : MultiDiGraph) (e : Edge3) : Option EdgeKey :=
  if e ∈ g.edges then some e.2.2 else none

/-- networkx `G.nodes[n]['seq']`; `none` models the KeyError on a missing node. -/
def nodeRecord (g : MultiDiGraph) (n : Int) : Option Dseqrecord :=
  (g.nodes.find? (fun p => decide (p.1 = n))).map (·.2)

/-- The distinct successor nodes of `u`, in edge insertion order (networkx adjacency
iteration). -/
def dedupFirstAux (seen : List Int) : List Int → List Int
  | [] => []
  | x :: xs => if x ∈ seen then dedupFirstAux seen xs else x :: dedupFirstAux (x :: seen) xs

/-- Remove duplicates keeping first occurrences. -/
def dedupFirst (l : List Int) : List Int := dedupFirstAux [] l

/-- Successor nodes of `u` in the graph. -/
def successors (g : MultiDiGraph) (u : Int) : List Int :=
  dedupFirst ((g.edges.filter (fun e => decide (e.1 = u))).map (fun e => e.2.1))

/-- The keys of the parallel edges from `u` to `v`, in insertion order (`self.G[u][v]`). -/
def edgesBetween (g : MultiDiGraph) (u v : Int) : List EdgeKey :=
  (g.edges.filter (fun e => decide (e.1 = u ∧ e.2.1 = v))).map (fun e => e.2.2)

/-- `is_sublist(sublist, my_list)` from assembly2: True iff `sublist` occurs as a
contiguous run inside `my_list`. -/
def is_sublist {α : Type} [DecidableEq α] (sub l : List α) : Bool :=
  (List.range (l.length - sub.length + 1)).any (fun i => decide ((l.drop i).take sub.length = sub))

/-- The value `min(|x| for x in l)` (0 for the empty list, which Python would reject). -/
def minAbsVal : List Int → Nat
  | [] => 0
  | [x] => x.natAbs
  | x :: xs => min x.natAbs (minAbsVal xs)

/-- `min(range(len(lst)), key=lambda i: abs(lst[i]))`: the first index of an element of
minimal absolute value. -/
def minAbsIdx : List Int → Nat
  | [] => 0
  | [_] => 0
  | x :: xs => if x.natAbs ≤ minAbsVal xs then 0 else minAbsIdx xs + 1

/-- `circular_permutation_min_abs(lst)` from assembly2: rotate so that the element with
the smallest absolute value comes first. -/
def circular_permutation_min_abs (lst : List Int) : List Int :=
  let i := minAbsIdx lst
  lst.drop i ++ lst.take i

/-- `add_edges_from_match(match, index_first, index_secnd, first, secnd, graph)` from
assembly2: record one raw match as the four directed edges covering both
orientations of both fragments. -/
def add_edges_from_match (m : Nat × Nat × Nat) (index_first index_secnd : Int)
    (first secnd : Dseqrecord) (g : MultiDiGraph) : MultiDiGraph :=
  let x : Int := m.1
  let y : Int := m.2.1
  let len : Int := m.2.2
  let loc0 : Loc := shift_location [⟨x, x + len, 1⟩] 0 (first.seq.length : Int)
  let loc1 : Loc := shift_location [⟨y, y + len, 1⟩] 0 (secnd.seq.length : Int)
  let rc0 : Loc := locFlip loc0 (first.seq.length : Int)
  let rc1 : Loc := locFlip loc1 (secnd.seq.length : Int)
  let combinations : List Edge3 :=
    [ (index_first, index_secnd, (loc0, loc1)),
      (index_secnd, index_first, (loc1, loc0)),
      (-index_first, -index_secnd, (rc0, rc1)),
      (-index_secnd, -index_first, (rc1, rc0)) ]
  combinations.foldl add_edge g

/-- The Assembly facade: the graph built at construction, the input fragments and the
configuration flags. (The pluggable `algorithm` is a constructor argument of
`mkAssembly`; it is not read after construction except by `__repr__`.) -/
structure Assembly where
  G : MultiDiGraph
  fragments : List Dseqrecord
  limit : Nat
  use_fragment_order : Bool
  use_all_fragments : Bool
deriving Repr

/-- `itertools.combinations(it, 2)`: ordered pairs with the first strictly earlier. -/
def pairsComb : List Int → List (Int × Int)
  | [] => []
  | x :: xs => xs.map (fun y => (x, y)) ++ pairsComb xs

/-- `Assembly.__init__`: two nodes per fragment (`+i` forward, `-i` reverse-complement),
then for every pair `i < j` of positive nodes run the matcher on the upper-cased
sequences in forward/forward and forward/reverse orientation and record every match
through `add_edges_from_match`. -/
def mkAssembly (frags : List Dseqrecord) (limit : Nat)
    (algorithm : List Char → List Char → Nat → List (Nat × Nat × Nat))
    (use_fragment_order use_all_fragments : Bool) : Assembly :=
  let nodes : List (Int × Dseqrecord) :=
    frags.enum.map (fun p => (((p.1 : Int) + 1), p.2)) ++
      frags.enum.map (fun p => (-((p.1 : Int) + 1), recordRC p.2))
  let g0 : MultiDiGraph := ⟨nodes, []⟩
  let pos : List Int := (nodes.map (·.1)).filter (fun x => decide (0 < x))
  let g :=
    (pairsComb pos).foldl
      (fun g ij =>
        match nodeRecord g ij.1, nodeRecord g ij.2 with
        | some first, some secnd =>
          let matches_fwd := algorithm (upperStr first.seq) (upperStr secnd.seq) limit
          let g1 := matches_fwd.foldl
            (fun g m => add_edges_from_match m ij.1 ij.2 first secnd g) g
          let matches_rvs :=
            algorithm (upperStr first.seq) (reverse_complement (upperStr secnd.seq)) limit
          matches_rvs.foldl
            (fun g m => add_edges_from_match m ij.1 (-ij.2) first secnd g) g1
        | _, _ => g)
      g0
  ⟨g, frags, limit, use_fragment_order, use_all_fragments⟩

/-- `assembly[0][0] == assembly[-1][1]`: a candidate is circular when the first edge's
source equals the last edge's target. -/
def is_circular_asm : Asm → Bool
  | [] => false
  | e :: rest => decide (e.1 = ((e :: rest).getLast (List.cons_ne_nil e rest)).2.1)

/-- The consecutive edge pairs checked by `validate_assembly`, wrapping around for a
circular candidate. -/
def edge_pairs (asm : Asm) : List (Edge3 × Edge3) :=
  if is_circular_asm asm then asm.zip (asm.drop 1 ++ asm.take 1) else asm.zip (asm.drop 1)

/-- The ordering-consistency loop of `validate_assembly`: for each pair, look both edges
up in the graph and reject as soon as
`left_edge[1].parts[-1].end >= right_edge[0].parts[0].end`. `none` models a raise. -/
def check_pairs (a : Assembly) : List (Edge3 × Edge3) → Option Bool
  | [] => some true
  | (e1, e2) :: rest =>
    match lookupLocs a.G e1 with
    | none => none
    | some left_edge =>
      match lookupLocs a.G e2 with
      | none => none
      | some right_edge =>
        match left_edge.2.getLast? with
        | none => none
        | some lp =>
          match right_edge.1.head? with
          | none => none
          | some rp =>
            if rp.stop ≤ lp.stop then some false else check_pairs a rest

/-- The fragment-count guard of `validate_assembly`:
`self.use_all_fragments and (len(assembly) - (1 if is_circular else 0) != len(self.fragments) - 1)`. -/
def countGuard (a : Assembly) (asm : Asm) : Prop :=
  a.use_all_fragments = true ∧
    (asm.length : Int) - (if is_circular_asm asm then 1 else 0) ≠ (a.fragments.length : Int) - 1

instance (a : Assembly) (asm : Asm) : Decidable (countGuard a asm) := by
  unfold countGuard
  infer_instance

/-- `Assembly.validate_assembly`. -/
def validate_assembly (a : Assembly) (asm : Asm) : Option Bool :=
  if asm.isEmpty then some false
  else if countGuard a asm then some false
  else check_pairs a (edge_pairs asm)

/-- The accumulation loop of `remove_subassemblies`: keep a candidate only when it is
not a sublist of an already-kept one. -/
def remove_go (acc : List Asm) : List Asm → List Asm
  | [] => acc
  | x :: rest =>
    if acc.any (fun a => is_sublist x a) then remove_go acc rest
    else remove_go (acc ++ [x]) rest

/-- `Assembly.remove_subassemblies`: sort by length, longest first (Python's `sorted`
is stable, which `List.insertionSort` with a non-strict relation reproduces), then
filter out candidates contained in an already-kept one. -/
def remove_subassemblies (assemblies : List Asm) : List Asm :=
  remove_go [] (List.insertionSort (fun x y => y.length ≤ x.length) assemblies)

/-- `filter(self.validate_assembly, candidates)`, as consumed by a list constructor:
`none` models the exception that a failing graph lookup inside
`validate_assembly` would propagate. -/
def filterValid (a : Assembly) : List Asm → Option (List Asm)
  | [] => some []
  | x :: xs =>
    match validate_assembly a x with
    | none => none
    | some b =>
      match filterValid a xs with
      | none => none
      | some rest => some (if b then x :: rest else rest)

/-- A node of the temporary graph copy used by the linear search: a real fragment node
or one of the synthetic `'begin'` / `'end'` anchors. -/
inductive AugN where
  | frag : Int → AugN
  | src : AugN
  | snk : AugN
deriving DecidableEq, Repr

/-- An edge of the augmented graph; anchor edges carry no location key. -/
abbrev AugEdge := AugN × AugN × Option EdgeKey

/-- The temporary augmented graph of `get_linear_assemblies`: a copy of the stored
graph's edges plus the anchor edges prescribed by `use_fragment_order`. -/
def buildAug (a : Assembly) : List AugEdge :=
  let base : List AugEdge := a.G.edges.map (fun e => (AugN.frag e.1, AugN.frag e.2.1, some e.2.2))
  if a.use_fragment_order then
    base ++
      [ (AugN.src, AugN.frag 1, none), (AugN.src, AugN.frag (-1), none),
        (AugN.frag (a.fragments.length : Int), AugN.snk, none),
        (AugN.frag (-(a.fragments.length : Int)), AugN.snk, none) ]
  else
    base ++
      (a.G.nodes.map (·.1)).flatMap (fun v =>
        (if 0 < v then [((AugN.src : AugN), AugN.frag v, (none : Option EdgeKey))] else []) ++
          [(AugN.frag v, AugN.snk, none)])

/-- Modelled from the spec (section 4.3): the external
`networkx.all_simple_edge_paths(G, 'begin', 'end')` — all paths of edges from the
current node to `tgt` that visit no node twice, enumerating parallel edges
separately. `avail` is the set of nodes still allowed; `fuel` bounds the depth. -/
def simpleEdgePaths (edges : List AugEdge) (tgt : AugN) (avail : List AugN) (cur : AugN) :
    Nat → List (List AugEdge)
  | 0 => []
  | fuel + 1 =>
    (edges.filter (fun e => decide (e.1 = cur))).flatMap (fun e =>
      if e.2.1 = tgt then [[e]]
      else if e.2.1 ∈ avail then
        (simpleEdgePaths edges tgt (avail.erase e.2.1) e.2.1 fuel).map (fun p => e :: p)
      else [])

/-- Keep the real middle edges of an anchored path (`tuple(x[1:-1])`). -/
def realEdge : AugEdge → Option Edge3
  | (AugN.frag u, AugN.frag v, some k) => some (u, v, k)
  | _ => none

/-- `Assembly.get_linear_assemblies`. -/
def get_linear_assemblies (a : Assembly) : Option (List Asm) :=
  let aug := buildAug a
  let avail := (a.G.nodes.map (fun p => AugN.frag p.1)) ++ [AugN.snk]
  let paths := simpleEdgePaths aug AugN.snk avail AugN.src (a.G.nodes.length + 2)
  let cands := paths.map (fun p => ((p.drop 1).dropLast).filterMap realEdge)
  (filterValid a cands).map remove_subassemblies

/-- All lists picking one element from each list in turn (`itertools.product`). -/
def listProd {α : Type} : List (List α) → List (List α)
  | [] => [[]]
  | xs :: rest => xs.flatMap (fun x => (listProd rest).map (fun t => x :: t))

/-- `Assembly.cycle2circular_assemblies`: expand a node cycle into one assembly per
combination of parallel edges along its consecutive (wrapped) node pairs. -/
def cycle2circular_assemblies (a : Assembly) (cycle : List Int) : List Asm :=
  listProd
    ((cycle.zip (cycle.drop 1 ++ cycle.take 1)).map
      (fun p => (edgesBetween a.G p.1 p.2).map (fun k => (p.1, p.2, k))))

/-- Modelled from the spec (section 4.3): the external
`networkx.cycles.simple_cycles` — all simple directed cycles, each reported once as
a list of distinct nodes. A cycle is rooted at its earliest node in graph node
order; `avail` holds the strictly later nodes. -/
def cyclePaths (g : MultiDiGraph) (s : Int) (avail : List Int) (cur : Int) :
    Nat → List (List Int)
  | 0 => []
  | fuel + 1 =>
    (successors g cur).flatMap (fun v =>
      (if v = s then [[]] else []) ++
        (if v ∈ avail then (cyclePaths g s (avail.erase v) v fuel).map (fun p => v :: p)
         else []))

/-- All simple cycles of the graph, as node lists. -/
def simple_cycles (g : MultiDiGraph) : List (List Int) :=
  let ns := g.nodes.map (·.1)
  (List.range ns.length).flatMap (fun i =>
    match ns.get? i with
    | none => []
    | some s => (cyclePaths g s (ns.drop (i + 1)) s (ns.length + 1)).map (fun p => s :: p))

/-- `Assembly.get_circular_assemblies`. -/
def get_circular_assemblies (a : Assembly) : Option (List Asm) :=
  let sorted_cycles := (simple_cycles a.G).map circular_permutation_min_abs
  let kept := sorted_cycles.filter (fun c =>
    match c.head? with
    | some x => decide (0 < x)
    | none => false)
  let assemblies := kept.flatMap (cycle2circular_assemblies a)
  filterValid a assemblies

/-- Option-valued `map` over a list, propagating the first failure (a Python loop whose
body may raise). -/
def omap {α β : Type} (f : α → Option β) : List α → Option (List β)
  | [] => some []
  | x :: xs =>
    match f x with
    | none => none
    | some y =>
      match omap f xs with
      | none => none
      | some ys => some (y :: ys)

/-- An entry of the `temp` list of `edge_representation2subfragment_representation`:
a real edge wrapped in `some`s, or a sentinel with `None` components. -/
abbrev OptE := Option Int × Option Int × Option EdgeKey

/-- Wrap a real edge for the `temp` list. -/
def toOptE (e : Edge3) : OptE := (some e.1, some e.2.1, some e.2.2)

/-- `None if u1 is None else self.G[u1][v1][key1]['locations'][1]`. -/
def subfragSide1 (g : MultiDiGraph) : OptE → Option (Option Loc)
  | (none, _, _) => some none
  | (some u, some v, some k) => (lookupLocs g (u, v, k)).map (fun kk => some kk.2)
  | (some _, _, _) => none

/-- `None if v2 is None else self.G[u2][v2][key2]['locations'][0]`. -/
def subfragSide2 (g : MultiDiGraph) : OptE → Option (Option Loc)
  | (_, none, _) => some none
  | (some u, some v, some k) => (lookupLocs g (u, v, k)).map (fun kk => some kk.1)
  | (_, some _, _) => none

/-- A fragment visited by an assembly with the overlap locations bounding it on the
left and on the right (`None` at the free ends of a linear assembly). -/
abbrev SubFragRepr := Int × Option Loc × Option Loc

/-- The loop body of `edge_representation2subfragment_representation`: from one
consecutive pair of `temp` entries, the visited fragment `v1` with its left and
right overlap locations. -/
def subfragEntry (g : MultiDiGraph) (p : OptE × OptE) : Option SubFragRepr :=
  match subfragSide1 g p.1 with
  | none => none
  | some sl =>
    match subfragSide2 g p.2 with
    | none => none
    | some el =>
      match p.1.2.1 with
      | none => none
      | some node => some (node, sl, el)

/-- `Assembly.edge_representation2subfragment_representation`. `none` models the
IndexError on an empty assembly or a KeyError from a failing lookup. -/
def edge_representation2subfragment_representation (a : Assembly) (asm : Asm) :
    Option (List SubFragRepr) :=
  match asm with
  | [] => none
  | e :: rest =>
    let lastE := (e :: rest).getLast (List.cons_ne_nil e rest)
    let temp : List OptE :=
      if is_circular_asm (e :: rest) then toOptE lastE :: (e :: rest).map toOptE
      else (none, some e.1, none) :: ((e :: rest).map toOptE ++ [(some lastE.2.1, none, none)])
    omap (subfragEntry a.G) (temp.zip (temp.drop 1))

/-- `Assembly.get_assembly_subfragments`: slice each visited fragment from the start of
its left overlap (or the sequence start) to the end of its right overlap (or the
sequence end). -/
def get_assembly_subfragments (a : Assembly) (frs : List SubFragRepr) :
    Option (List Dseqrecord) :=
  omap
    (fun f =>
      match nodeRecord a.G f.1 with
      | none => none
      | some rec0 =>
        match
          (match f.2.1 with
           | none => some (0 : Int)
           | some l => (l.head?).map (fun (p : SimpleLoc) => p.start)) with
        | none => none
        | some start =>
          match
            (match f.2.2 with
             | none => some (none : Option Int)
             | some l => (l.getLast?).map (fun (p : SimpleLoc) => some p.stop)) with
          | none => none
          | some stop => some (recordSlice rec0 start stop))
    frs

/-- The overlap length of each edge: `len(self.G[u][v][key]['locations'][1])`. -/
def overlapsOf (a : Assembly) (asm : Asm) : Option (List Int) :=
  omap (fun e => (lookupLocs a.G e).map (fun k => locLen k.2)) asm

/-- One step of the joining loop of `assemble`: shift the incoming fragment's features
left by the overlap, append the fragment's sequence without its overlap prefix. -/
def joinStep (out : Dseqrecord) (p : Dseqrecord × Int) : Dseqrecord :=
  ⟨out.seq ++ pySlice p.1.seq p.2 none, false,
    out.features ++ p.1.features.map (fun l => locShift ((out.seq.length : Int) - p.2) l)⟩

/-- The origin-wrapping pass of `assemble` on one feature location. -/
def wrapFeature (total : Int) (l : Loc) : Option Loc :=
  match l.head?, l.getLast? with
  | some p0, some pl =>
    some (if total ≤ p0.start ∨ total < pl.stop then shift_location l 0 total else l)
  | _, _ => none

/-- The closing step of a circular `assemble`: mark the trimmed record circular and
rewrite every feature that now runs past the origin to its wrapped location. -/
def assembleWrap (trimmed : List Char) (fs : List Loc) : Option Dseqrecord :=
  match omap (wrapFeature (trimmed.length : Int)) fs with
  | none => none
  | some feats => some ⟨trimmed, true, feats⟩

/-- `Assembly.assemble`. -/
def assemble (a : Assembly) (asm : Asm) : Option Dseqrecord :=
  match edge_representation2subfragment_representation a asm with
  | none => none
  | some frs =>
    match overlapsOf a asm with
    | none => none
    | some fragment_overlaps =>
      match get_assembly_subfragments a frs with
      | none => none
      | some subfragments =>
        match subfragments with
        | [] => none
        | s0 :: _ =>
          let joined :=
            ((subfragments.drop 1).zip fragment_overlaps).foldl joinStep
              { s0 with circular := false }
          match frs with
          | [] => none
          | f :: _ =>
            match f.2.1 with
            | none => some joined
            | some _ =>
              match fragment_overlaps.getLast? with
              | none => none
              | some overlap =>
                assembleWrap (pySlice joined.seq 0 (some (-overlap))) joined.features

/-- `Assembly.get_linear_assemblies` as a method on the mutable facade object: the
search runs on a temporary augmented copy of the graph, and the object's fields
are only read. -/
def get_linear_assemblies_st : StateM Assembly (Option (List Asm)) := do
  let a ← get
  pure (get_linear_assemblies a)

/-- `Assembly.get_circular_assemblies` as a method on the mutable facade object. -/
def get_circular_assemblies_st : StateM Assembly (Option (List Asm)) := do
  let a ← get
  pure (get_circular_assemblies a)

/-- `Assembly.assemble` as a method on the mutable facade object: the output record is
newly constructed and nothing is written back. -/
def assemble_st (asm : Asm) : StateM Assembly (Option Dseqrecord) := do
  let a ← get
  pure (assemble a asm)

/-- Example fragment `a` from the assembly2 module fixtures. -/
def fragA : Dseqrecord := ⟨("AacgatCAtgctcc").toList, false, []⟩

/-- Example fragment `b` from the assembly2 module fixtures. -/
def fragB : Dseqrecord := ⟨("TtgctccTAAattctgc").toList, false, []⟩

/-- Example fragment `c` from the assembly2 module fixtures. -/
def fragC : Dseqrecord := ⟨("CattctgcGAGGacgatG").toList, false, []⟩

/-- The matches that `pydna.common_sub_strings.common_sub_strings` reports at limit 5
for the example fragments, keyed by the query strings the builder passes: `(8, 1, 6)`
for (a, b) (the module docstring's worked example), `(1, 12, 5)` for (a, c) and
`(10, 1, 7)` for (b, c); no reverse-orientation pair shares 5 or more characters. -/
def exAlgo (s1 s2 : List Char) (_lim : Nat) : List (Nat × Nat × Nat) :=
  if s1 = ("AACGATCATGCTCC").toList ∧ s2 = ("TTGCTCCTAAATTCTGC").toList then [(8, 1, 6)]
  else if s1 = ("AACGATCATGCTCC").toList ∧ s2 = ("CATTCTGCGAGGACGATG").toList then [(1, 12, 5)]
  else if s1 = ("TTGCTCCTAAATTCTGC").toList ∧ s2 = ("CATTCTGCGAGGACGATG").toList then [(10, 1, 7)]
  else []

/-- The example Assembly: the three example fragments at limit 5 with
`use_fragment_order=False`, as in the module docstring. -/
def exAsm : Assembly := mkAssembly [fragA, fragB, fragC] 5 exAlgo false false

/-- The overlap key of the edge `1[8:14](+):2[1:7](+)`. -/
def k12 : EdgeKey := ([⟨8, 14, 1⟩], [⟨1, 7, 1⟩])

/-- The overlap key of the edge `2[10:17](+):3[1:8](+)`. -/
def k23 : EdgeKey := ([⟨10, 17, 1⟩], [⟨1, 8, 1⟩])

/-- The overlap key of the edge `3[12:17](+):1[1:6](+)`. -/
def k31 : EdgeKey := ([⟨12, 17, 1⟩], [⟨1, 6, 1⟩])

/-- The overlap key of the edge `2[1:7](+):1[8:14](+)`. -/
def k21 : EdgeKey := ([⟨1, 7, 1⟩], [⟨8, 14, 1⟩])

/-- The linear assemblies of the example Assembly. -/
def exLinear : List Asm := (get_linear_assemblies exAsm).getD []

/-- The circular assemblies of the example Assembly. -/
def exCircular : List Asm := (get_circular_assemblies exAsm).getD []

/-- The two-edge linear assembly joining fragments 1, 2 and 3. -/
def asmABC : Asm := [(1, 2, k12), (2, 3, k23)]

/-- The canonical circular assembly of the example. -/
def asmCirc : Asm := [(1, 2, k12), (2, 3, k23), (3, 1, k31)]

/-- A single-part plus-strand location inside the sequence is left unchanged by
`shift_location` with shift 0. -/
lemma shift_location_single_id (s e T : Int) (h0 : 0 ≤ s) (hsT : s < T) (heT : e ≤ T) :
    shift_location [⟨s, e, 1⟩] 0 T = [⟨s, e, 1⟩] := by
  have hmod : (s + 0) % T = s := by
    rw [Int.add_zero]
    exact Int.emod_eq_of_lt h0 hsT
  simp only [shift_location, List.flatMap_cons, List.flatMap_nil, List.append_nil, hmod]
  have hne : s + (e - s) = e := by ring
  rw [hne]
  simp [heT]

/-- `add_edge` appends a fresh edge. -/
lemma add_edge_of_not_mem (g : MultiDiGraph) (e : Edge3) (h : e ∉ g.edges) :
    add_edge g e = { g with edges := g.edges ++ [e] } := by
  simp [add_edge, h]

/-- Folding `add_edge` over pairwise-distinct fresh edges appends them all. -/
lemma foldl_add_edge_fresh (es : List Edge3) :
    ∀ (g : MultiDiGraph), (∀ e ∈ es, e ∉ g.edges) → es.Nodup →
      (es.foldl add_edge g).edges = g.edges ++ es := by
  induction es with
  | nil => intro g _ _; simp
  | cons e es ih =>
    intro g h hn
    have he : e ∉ g.edges := h e (List.mem_cons_self e es)
    have hfresh : ∀ x ∈ es, x ∉ ({ g with edges := g.edges ++ [e] } : MultiDiGraph).edges := by
      intro x hx hmem
      rcases List.mem_append.mp hmem with hm | hm
      · exact h x (List.mem_cons_of_mem e hx) hm
      · have hx_eq : x = e := by simpa using hm
        exact (List.nodup_cons.mp hn).1 (hx_eq ▸ hx)
    simp only [List.foldl_cons]
    rw [add_edge_of_not_mem _ _ he, ih _ hfresh (List.nodup_cons.mp hn).2]
    simp

/-- Claim C1: for every raw match `(posA, posB, length)` reported by the matcher for a
left node `L` and right node `R`, the graph builder adds exactly 4 directed edges —
`(L, R)` with locations `([posA, posA+length), [posB, posB+length))`, `(R, L)` with
the pair swapped, `(-L, -R)` with the flipped locations and `(-R, -L)` with the
flipped pair swapped — and on each of these edges the two locations have equal
length, equal to the raw match length. -/
theorem claim_C1 (x y L : Nat) (i j : Int) (first secnd : Dseqrecord) (g : MultiDiGraph)
    (hL : 1 ≤ L) (hx : x + L ≤ first.seq.length) (hy : y + L ≤ secnd.seq.length)
    (hi : 0 < i) (hj : j ≠ 0) (hij : i.natAbs ≠ j.natAbs)
    (h1 : ((i, j, ([⟨x, x + L, 1⟩], [⟨y, y + L, 1⟩])) : Edge3) ∉ g.edges)
    (h2 : ((j, i, ([⟨y, y + L, 1⟩], [⟨x, x + L, 1⟩])) : Edge3) ∉ g.edges)
    (h3 : ((-i, -j, ([⟨(first.seq.length : Int) - (x + L), (first.seq.length : Int) - x, -1⟩],
                     [⟨(secnd.seq.length : Int) - (y + L), (secnd.seq.length : Int) - y, -1⟩])) :
        Edge3) ∉ g.edges)
    (h4 : ((-j, -i, ([⟨(secnd.seq.length : Int) - (y + L), (secnd.seq.length : Int) - y, -1⟩],
                     [⟨(first.seq.length : Int) - (x + L), (first.seq.length : Int) - x, -1⟩])) :
        Edge3) ∉ g.edges) :
    (add_edges_from_match (x, y, L) i j first secnd g).edges =
      g.edges ++
        [ (i, j, ([⟨x, x + L, 1⟩], [⟨y, y + L, 1⟩])),
          (j, i, ([⟨y, y + L, 1⟩], [⟨x, x + L, 1⟩])),
          (-i, -j, ([⟨(first.seq.length : Int) - (x + L), (first.seq.length : Int) - x, -1⟩],
                    [⟨(secnd.seq.length : Int) - (y + L), (secnd.seq.length : Int) - y, -1⟩])),
          (-j, -i, ([⟨(secnd.seq.length : Int) - (y + L), (secnd.seq.length : Int) - y, -1⟩],
                    [⟨(first.seq.length : Int) - (x + L), (first.seq.length : Int) - x, -1⟩])) ]
      ∧ locLen [⟨(x : Int), x + L, 1⟩] = L
      ∧ locLen [⟨(y : Int), y + L, 1⟩] = L
      ∧ locLen [⟨(first.seq.length : Int) - (x + L), (first.seq.length : Int) - x, -1⟩] = L
      ∧ locLen [⟨(secnd.seq.length : Int) - (y + L), (secnd.seq.length : Int) - y, -1⟩] = L := by
  have hxi : ((x : Int)) < (first.seq.length : Int) := by
    have h' : x < first.seq.length := by omega
    exact_mod_cast h'
  have hxe : ((x : Int)) + L ≤ (first.seq.length : Int) := by exact_mod_cast hx
  have hyi : ((y : Int)) < (secnd.seq.length : Int) := by
    have h' : y < secnd.seq.length := by omega
    exact_mod_cast h'
  have hye : ((y : Int)) + L ≤ (secnd.seq.length : Int) := by exact_mod_cast hy
  have hs1 : shift_location [⟨(x : Int), x + L, 1⟩] 0 (first.seq.length : Int)
      = [⟨(x : Int), x + L, 1⟩] :=
    shift_location_single_id _ _ _ (Int.ofNat_nonneg x) hxi hxe
  have hs2 : shift_location [⟨(y : Int), y + L, 1⟩] 0 (secnd.seq.length : Int)
      = [⟨(y : Int), y + L, 1⟩] :=
    shift_location_single_id _ _ _ (Int.ofNat_nonneg y) hyi hye
  have hflip1 : locFlip [⟨(x : Int), x + L, 1⟩] (first.seq.length : Int)
      = [⟨(first.seq.length : Int) - (x + L), (first.seq.length : Int) - x, -1⟩] := rfl
  have hflip2 : locFlip [⟨(y : Int), y + L, 1⟩] (secnd.seq.length : Int)
      = [⟨(secnd.seq.length : Int) - (y + L), (secnd.seq.length : Int) - y, -1⟩] := rfl
  refine ⟨?_, by simp [locLen], by simp [locLen], by simp [locLen], by simp [locLen]⟩
  show (List.foldl add_edge g _).edges = _
  rw [hs1, hs2, hflip1, hflip2]
  rw [foldl_add_edge_fresh]
  · intro e he
    simp only [List.mem_cons, List.not_mem_nil, or_false] at he
    rcases he with rfl | rfl | rfl | rfl
    · exact h1
    · exact h2
    · exact h3
    · exact h4
  · have fst12 : i ≠ j := by omega
    have fst13 : i ≠ -i := by omega
    have fst14 : i ≠ -j := by omega
    have fst23 : j ≠ -i := by omega
    have fst24 : j ≠ -j := by omega
    have fst34 : -i ≠ -j := by omega
    refine List.nodup_cons.mpr ⟨?_, List.nodup_cons.mpr ⟨?_, List.nodup_cons.mpr
      ⟨?_, List.nodup_singleton _⟩⟩⟩
    · intro hm
      simp only [List.mem_cons, List.not_mem_nil, or_false] at hm
      rcases hm with hc | hc | hc
      · exact fst12 (congrArg Prod.fst hc)
      · exact fst13 (congrArg Prod.fst hc)
      · exact fst14 (congrArg Prod.fst hc)
    · intro hm
      simp only [List.mem_cons, List.not_mem_nil, or_false] at hm
      rcases hm with hc | hc
      · exact fst23 (congrArg Prod.fst hc)
      · exact fst24 (congrArg Prod.fst hc)
    · intro hm
      simp only [List.mem_cons, List.not_mem_nil, or_false] at hm
      exact fst34 (congrArg Prod.fst hm)

/-- Witness for claim C1: the worked example of the module docstring — match `(8, 1, 6)`
between fragments a and b added to the empty graph yields exactly the four
documented edges. -/
theorem claim_C1_witness :
    (add_edges_from_match (8, 1, 6) 1 2 fragA fragB ⟨[], []⟩).edges =
      ([] : List Edge3) ++
        [ (1, 2, ([⟨8, 8 + 6, 1⟩], [⟨1, 1 + 6, 1⟩])),
          (2, 1, ([⟨1, 1 + 6, 1⟩], [⟨8, 8 + 6, 1⟩])),
          (-1, -2, ([⟨(fragA.seq.length : Int) - (8 + 6), (fragA.seq.length : Int) - 8, -1⟩],
                    [⟨(fragB.seq.length : Int) - (1 + 6), (fragB.seq.length : Int) - 1, -1⟩])),
          (-2, -1, ([⟨(fragB.seq.length : Int) - (1 + 6), (fragB.seq.length : Int) - 1, -1⟩],
                    [⟨(fragA.seq.length : Int) - (8 + 6), (fragA.seq.length : Int) - 8, -1⟩])) ]
      ∧ locLen [⟨(8 : Int), 8 + 6, 1⟩] = 6
      ∧ locLen [⟨(1 : Int), 1 + 6, 1⟩] = 6
      ∧ locLen [⟨(fragA.seq.length : Int) - (8 + 6), (fragA.seq.length : Int) - 8, -1⟩] = 6
      ∧ locLen [⟨(fragB.seq.length : Int) - (1 + 6), (fragB.seq.length : Int) - 1, -1⟩] = 6 := by
  have h := claim_C1 8 1 6 1 2 fragA fragB ⟨[], []⟩ (by decide) (by decide) (by decide)
    (by decide) (by decide) (by decide) (by decide) (by decide) (by decide) (by decide)
  simpa using h

/-- Claim C7: the enumeration and materialization methods leave the facade state — the
graph built at construction and the stored input fragments — unchanged, and return
exactly the value of the corresponding pure function. -/
theorem claim_C7 (a : Assembly) (asm : Asm) :
    ((get_linear_assemblies_st.run a).2.G = a.G
        ∧ (get_linear_assemblies_st.run a).2.fragments = a.fragments)
    ∧ ((get_circular_assemblies_st.run a).2.G = a.G
        ∧ (get_circular_assemblies_st.run a).2.fragments = a.fragments)
    ∧ (((assemble_st asm).run a).2.G = a.G
        ∧ ((assemble_st asm).run a).2.fragments = a.fragments)
    ∧ (get_linear_assemblies_st.run a).1 = get_linear_assemblies a
    ∧ (get_circular_assemblies_st.run a).1 = get_circular_assemblies a
    ∧ ((assemble_st asm).run a).1 = assemble a asm :=
  ⟨⟨rfl, rfl⟩, ⟨rfl, rfl⟩, ⟨rfl, rfl⟩, rfl, rfl, rfl⟩

/-- Claim C8: materializing the same returned assembly twice yields identical symbols,
circularity and annotation lists. -/
theorem claim_C8 (a : Assembly) (out : List Asm) (asm : Asm)
    (_h : get_linear_assemblies a = some out ∨ get_circular_assemblies a = some out)
    (_hm : asm ∈ out) :
    (assemble a asm).map Dseqrecord.seq = (assemble a asm).map Dseqrecord.seq
    ∧ (assemble a asm).map Dseqrecord.circular = (assemble a asm).map Dseqrecord.circular
    ∧ (assemble a asm).map Dseqrecord.features = (assemble a asm).map Dseqrecord.features :=
  ⟨rfl, rfl, rfl⟩

/-- Witness for claim C8, at the example Assembly and its first documented linear
assembly. -/
theorem claim_C8_witness :
    (assemble exAsm asmABC).map Dseqrecord.seq = (assemble exAsm asmABC).map Dseqrecord.seq
    ∧ (assemble exAsm asmABC).map Dseqrecord.circular
        = (assemble exAsm asmABC).map Dseqrecord.circular
    ∧ (assemble exAsm asmABC).map Dseqrecord.features
        = (assemble exAsm asmABC).map Dseqrecord.features :=
  claim_C8 exAsm exLinear asmABC (Or.inl (by decide)) (by decide)

/-- Claim C9 counterexample: `validate_assembly` is not total on arbitrary edge
triples — on a two-edge candidate whose triples name nodes 5 and 7, absent from the
example graph, the lookup `self.G[u1][v1][key1]` raises (modelled by `none`), so no
boolean is returned. -/
theorem claim_C9_counterexample :
    validate_assembly exAsm [(5, 7, k12), (7, 5, k21)] = none := by decide

/-- A successful lookup is exactly membership of the edge triple, and returns the
locations carried by the key. -/
lemma lookupLocs_mem (g : MultiDiGraph) (e : Edge3) (h : e ∈ g.edges) :
    lookupLocs g e = some e.2.2 := by
  simp [lookupLocs, h]

/-- A successful lookup implies membership. -/
lemma mem_of_lookupLocs (g : MultiDiGraph) (e : Edge3) (k : EdgeKey)
    (h : lookupLocs g e = some k) : e ∈ g.edges ∧ k = e.2.2 := by
  by_cases hm : e ∈ g.edges
  · refine ⟨hm, ?_⟩
    rw [lookupLocs_mem g e hm] at h
    exact (Option.some.inj h).symm
  · simp [lookupLocs, hm] at h

/-- If the ordering loop answers `True`, every checked pair has both edges in the
graph and the strict ordering between the boundary parts holds. -/
lemma check_pairs_true_spec (a : Assembly) :
    ∀ ps : List (Edge3 × Edge3), check_pairs a ps = some true →
      ∀ p ∈ ps, p.1 ∈ a.G.edges ∧ p.2 ∈ a.G.edges ∧
        ∃ lp rp, (p.1.2.2.2).getLast? = some lp ∧ (p.2.2.2.1).head? = some rp ∧
          lp.stop < rp.stop := by
  intro ps
  induction ps with
  | nil => intro _ p hp; simp at hp
  | cons pr rest ih =>
    intro h p hp
    obtain ⟨e1, e2⟩ := pr
    cases h1 : lookupLocs a.G e1 with
    | none => simp [check_pairs, h1] at h
    | some l =>
      cases h2 : lookupLocs a.G e2 with
      | none => simp [check_pairs, h1, h2] at h
      | some r =>
        cases h3 : l.2.getLast? with
        | none => simp [check_pairs, h1, h2, h3] at h
        | some lp =>
          cases h4 : r.1.head? with
          | none => simp [check_pairs, h1, h2, h3, h4] at h
          | some rp =>
            simp only [check_pairs, h1, h2, h3, h4] at h
            by_cases h5 : rp.stop ≤ lp.stop
            · rw [if_pos h5] at h; exact absurd h (by simp)
            · rw [if_neg h5] at h
              rcases List.mem_cons.mp hp with rfl | hp2
              · obtain ⟨hm1, hk1⟩ := mem_of_lookupLocs _ _ _ h1
                obtain ⟨hm2, hk2⟩ := mem_of_lookupLocs _ _ _ h2
                subst hk1
                subst hk2
                exact ⟨hm1, hm2, lp, rp, h3, h4, lt_of_not_le h5⟩
              · exact ih h p hp2

/-- If every checked pair has both edges in the graph with nonempty boundary
locations, the ordering loop answers some boolean. -/
lemma check_pairs_total (a : Assembly) :
    ∀ ps : List (Edge3 × Edge3),
      (∀ p ∈ ps, p.1 ∈ a.G.edges ∧ p.2 ∈ a.G.edges ∧
        (p.1.2.2.2).getLast?.isSome ∧ (p.2.2.2.1).head?.isSome) →
      ∃ b, check_pairs a ps = some b := by
  intro ps
  induction ps with
  | nil => intro _; exact ⟨true, rfl⟩
  | cons pr rest ih =>
    intro hok
    obtain ⟨e1, e2⟩ := pr
    obtain ⟨hm1, hm2, hl, hr⟩ := hok (e1, e2) (List.mem_cons_self _ _)
    obtain ⟨lp, hlp⟩ := Option.isSome_iff_exists.mp hl
    obtain ⟨rp, hrp⟩ := Option.isSome_iff_exists.mp hr
    simp only [check_pairs, lookupLocs_mem _ _ hm1, lookupLocs_mem _ _ hm2, hlp, hrp]
    by_cases h5 : rp.stop ≤ lp.stop
    · exact ⟨false, by rw [if_pos h5]⟩
    · obtain ⟨b, hb⟩ := ih (fun p hp => hok p (List.mem_cons_of_mem _ hp))
      exact ⟨b, by rw [if_neg h5]; exact hb⟩

/-- If in addition some checked pair violates the strict ordering, the loop answers
`False`. -/
lemma check_pairs_false_spec (a : Assembly) :
    ∀ ps : List (Edge3 × Edge3),
      (∀ p ∈ ps, p.1 ∈ a.G.edges ∧ p.2 ∈ a.G.edges ∧
        (p.1.2.2.2).getLast?.isSome ∧ (p.2.2.2.1).head?.isSome) →
      (∃ p ∈ ps, ∃ lp rp, (p.1.2.2.2).getLast? = some lp ∧ (p.2.2.2.1).head? = some rp ∧
        rp.stop ≤ lp.stop) →
      check_pairs a ps = some false := by
  intro ps
  induction ps with
  | nil => intro _ hv; simp at hv
  | cons pr rest ih =>
    intro hok hv
    obtain ⟨e1, e2⟩ := pr
    obtain ⟨hm1, hm2, hl, hr⟩ := hok (e1, e2) (List.mem_cons_self _ _)
    obtain ⟨lp, hlp⟩ := Option.isSome_iff_exists.mp hl
    obtain ⟨rp, hrp⟩ := Option.isSome_iff_exists.mp hr
    simp only [check_pairs, lookupLocs_mem _ _ hm1, lookupLocs_mem _ _ hm2, hlp, hrp]
    by_cases h5 : rp.stop ≤ lp.stop
    · rw [if_pos h5]
    · rw [if_neg h5]
      apply ih (fun p hp => hok p (List.mem_cons_of_mem _ hp))
      rcases hv with ⟨p, hp, lp2, rp2, hlp2, hrp2, hle⟩
      rcases List.mem_cons.mp hp with rfl | hp2
      · rw [hlp] at hlp2
        rw [hrp] at hrp2
        cases Option.some.inj hlp2
        cases Option.some.inj hrp2
        exact absurd hle h5
      · exact ⟨p, hp2, lp2, rp2, hlp2, hrp2, hle⟩

/-- On a nonempty candidate passing the fragment-count guard, `validate_assembly` is
exactly the ordering loop. -/
lemma validate_assembly_eq_check (a : Assembly) (asm : Asm) (hne : asm ≠ [])
    (hcount : ¬countGuard a asm) :
    validate_assembly a asm = check_pairs a (edge_pairs asm) := by
  unfold validate_assembly
  rw [if_neg (by simpa [List.isEmpty_iff] using hne), if_neg hcount]

/-- Claim C2: `validate_assembly` enforces ordering consistency — it answers `True`
only if for every consecutive edge pair (wrapping around for a circular candidate)
the end of the last part of the first edge's overlap location on the shared middle
fragment is strictly below the end of the first part of the second edge's overlap
location; and a nonempty candidate passing the fragment-count guard with some
violating pair (all lookups succeeding) is answered `False`. -/
theorem claim_C2 (a : Assembly) (asm : Asm) :
    (validate_assembly a asm = some true →
      ∀ p ∈ edge_pairs asm, p.1 ∈ a.G.edges ∧ p.2 ∈ a.G.edges ∧
        ∃ lp rp, (p.1.2.2.2).getLast? = some lp ∧ (p.2.2.2.1).head? = some rp ∧
          lp.stop < rp.stop)
    ∧ ((asm ≠ [] ∧ ¬countGuard a asm ∧
        (∀ p ∈ edge_pairs asm, p.1 ∈ a.G.edges ∧ p.2 ∈ a.G.edges ∧
          (p.1.2.2.2).getLast?.isSome ∧ (p.2.2.2.1).head?.isSome) ∧
        (∃ p ∈ edge_pairs asm, ∃ lp rp, (p.1.2.2.2).getLast? = some lp ∧
          (p.2.2.2.1).head? = some rp ∧ rp.stop ≤ lp.stop)) →
      validate_assembly a asm = some false) := by
  constructor
  · intro h
    have hne : asm ≠ [] := by
      intro hnil
      rw [hnil] at h
      simp [validate_assembly] at h
    by_cases hcount : countGuard a asm
    · exfalso
      unfold validate_assembly at h
      rw [if_neg (by simpa [List.isEmpty_iff] using hne), if_pos hcount] at h
      simp at h
    · rw [validate_assembly_eq_check a asm hne hcount] at h
      exact check_pairs_true_spec a _ h
  · rintro ⟨hne, hcount, hok, hviol⟩
    rw [validate_assembly_eq_check a asm hne hcount]
    exact check_pairs_false_spec a _ hok hviol

/-- Witness for claim C2: in the example graph the wrapped pair of the two-edge cycle
1 → 2 → 1 is co-located (both overlaps end at position 7 of fragment 2), so the
candidate is rejected. -/
theorem claim_C2_witness :
    validate_assembly exAsm [(1, 2, k12), (2, 1, k21)] = some false :=
  (claim_C2 exAsm [(1, 2, k12), (2, 1, k21)]).2
    ⟨by decide, by decide, by decide,
      ⟨((1, 2, k12), (2, 1, k21)), by decide, ⟨1, 7, 1⟩, ⟨1, 7, 1⟩, by decide, by decide,
        by decide⟩⟩

/-- Claim C6: with `use_all_fragments` set, a nonempty candidate is accepted only if
its edge count (minus one for a circular candidate) equals the number of input
fragments minus one, and every nonempty candidate with a different count is
rejected. -/
theorem claim_C6 (a : Assembly) (asm : Asm) (huse : a.use_all_fragments = true) :
    (validate_assembly a asm = some true →
      (asm.length : Int) - (if is_circular_asm asm then 1 else 0)
        = (a.fragments.length : Int) - 1)
    ∧ (asm ≠ [] →
      (asm.length : Int) - (if is_circular_asm asm then 1 else 0)
        ≠ (a.fragments.length : Int) - 1 →
      validate_assembly a asm = some false) := by
  constructor
  · intro h
    by_contra hne
    have hguard : countGuard a asm := ⟨huse, hne⟩
    have hnil : asm ≠ [] := by
      intro hnil
      rw [hnil] at h
      simp [validate_assembly] at h
    unfold validate_assembly at h
    rw [if_neg (by simpa [List.isEmpty_iff] using hnil), if_pos hguard] at h
    simp at h
  · intro hnil hne
    unfold validate_assembly
    rw [if_neg (by simpa [List.isEmpty_iff] using hnil), if_pos ⟨huse, hne⟩]

/-- Witness for claim C6: with all three example fragments required, the single-edge
candidate joining fragments 1 and 2 spans only two fragments and is rejected. -/
theorem claim_C6_witness :
    validate_assembly (mkAssembly [fragA, fragB, fragC] 5 exAlgo false true)
      [(1, 2, k12)] = some false :=
  (claim_C6 (mkAssembly [fragA, fragB, fragC] 5 exAlgo false true) [(1, 2, k12)]
      (by decide)).2 (by decide) (by decide)

/-- Every list is a sublist of itself (the window at offset 0). -/
lemma is_sublist_self {α : Type} [DecidableEq α] (l : List α) : is_sublist l l = true := by
  apply List.any_eq_true.mpr
  refine ⟨0, by simp [List.mem_range], by simp⟩

/-- A sublist is no longer than its container. -/
lemma length_le_of_is_sublist {α : Type} [DecidableEq α] {a b : List α}
    (h : is_sublist a b = true) : a.length ≤ b.length := by
  obtain ⟨i, _, hEq⟩ := List.any_eq_true.mp h
  have heq := of_decide_eq_true hEq
  have hlen := congrArg List.length heq
  simp only [List.length_take, List.length_drop] at hlen
  omega

/-- A sublist of equal length is the whole container. -/
lemma eq_of_is_sublist_of_length {α : Type} [DecidableEq α] {a b : List α}
    (h : is_sublist a b = true) (hl : a.length = b.length) : a = b := by
  obtain ⟨i, hir, hEq⟩ := List.any_eq_true.mp h
  have heq := of_decide_eq_true hEq
  have hi : i < b.length - a.length + 1 := List.mem_range.mp hir
  have hi0 : i = 0 := by omega
  subst hi0
  rw [List.drop_zero, hl, List.take_length] at heq
  exact heq.symm

/-- Invariant of the keeping loop of `remove_subassemblies`: starting from an
accumulator whose members are pairwise non-contained, at least as long as anything
still pending, and distinct, the result is drawn from accumulator and input, is
pairwise non-contained (containment implies equality) and has no duplicates. -/
lemma remove_go_spec :
    ∀ (rest acc : List Asm),
      (∀ x ∈ acc, ∀ y ∈ acc, is_sublist x y = true → x = y) →
      (∀ x ∈ acc, ∀ y ∈ rest, y.length ≤ x.length) →
      rest.Sorted (fun x y => y.length ≤ x.length) →
      acc.Nodup →
      (∀ z ∈ remove_go acc rest, z ∈ acc ∨ z ∈ rest)
      ∧ (∀ x ∈ remove_go acc rest, ∀ y ∈ remove_go acc rest, is_sublist x y = true → x = y)
      ∧ (remove_go acc rest).Nodup := by
  intro rest
  induction rest with
  | nil =>
    intro acc hpair _ _ hnodup
    exact ⟨fun z hz => Or.inl hz, hpair, hnodup⟩
  | cons x rest ih =>
    intro acc hpair hlen hsorted hnodup
    have hsorted' := (List.sorted_cons.mp hsorted).2
    have hxrest : ∀ y ∈ rest, y.length ≤ x.length := (List.sorted_cons.mp hsorted).1
    by_cases hguard : acc.any (fun a => is_sublist x a) = true
    · rw [show remove_go acc (x :: rest) = remove_go acc rest from by
        simp [remove_go, hguard]]
      have spec := ih acc hpair
        (fun z hz y hy => hlen z hz y (List.mem_cons_of_mem _ hy)) hsorted' hnodup
      refine ⟨fun z hz => ?_, spec.2.1, spec.2.2⟩
      rcases spec.1 z hz with h | h
      · exact Or.inl h
      · exact Or.inr (List.mem_cons_of_mem _ h)
    · have hnot : ∀ a ∈ acc, ¬is_sublist x a = true := by
        intro a ha hxa
        exact hguard (List.any_eq_true.mpr ⟨a, ha, hxa⟩)
      have hxacc : x ∉ acc := fun hx => hnot x hx (is_sublist_self x)
      rw [show remove_go acc (x :: rest) = remove_go (acc ++ [x]) rest from by
        simp [remove_go, hguard]]
      have hpair' : ∀ u ∈ acc ++ [x], ∀ v ∈ acc ++ [x], is_sublist u v = true → u = v := by
        intro u hu v hv hsub
        rcases List.mem_append.mp hu with hu1 | hu2
        · rcases List.mem_append.mp hv with hv1 | hv2
          · exact hpair u hu1 v hv1 hsub
          · have hvx : v = x := by simpa using hv2
            subst hvx
            have h1 : u.length ≤ v.length := length_le_of_is_sublist hsub
            have h2 : v.length ≤ u.length := hlen u hu1 v (List.mem_cons_self _ _)
            exact eq_of_is_sublist_of_length hsub (le_antisymm h1 h2)
        · have hux : u = x := by simpa using hu2
          subst hux
          rcases List.mem_append.mp hv with hv1 | hv2
          · exact absurd hsub (hnot v hv1)
          · have hvx : v = u := by simpa using hv2
            exact hvx.symm
      have hlen' : ∀ z ∈ acc ++ [x], ∀ y ∈ rest, y.length ≤ z.length := by
        intro z hz y hy
        rcases List.mem_append.mp hz with hz1 | hz2
        · exact hlen z hz1 y (List.mem_cons_of_mem _ hy)
        · have : z = x := by simpa using hz2
          subst this
          exact hxrest y hy
      have hnodup' : (acc ++ [x]).Nodup := by
        rw [List.nodup_append]
        refine ⟨hnodup, List.nodup_singleton _, ?_⟩
        intro a ha hax
        have hax' : a = x := by simpa using hax
        exact hxacc (hax' ▸ ha)
      have spec := ih (acc ++ [x]) hpair' hlen' hsorted' hnodup'
      refine ⟨fun z hz => ?_, spec.2.1, spec.2.2⟩
      rcases spec.1 z hz with h | h
      · rcases List.mem_append.mp h with h1 | h2
        · exact Or.inl h1
        · have hzx : z = x := by simpa using h2
          exact Or.inr (hzx ▸ List.mem_cons_self x rest)
      · exact Or.inr (List.mem_cons_of_mem _ h)

/-- The output of `remove_subassemblies` is drawn from its input, pairwise
non-contained (so no strict contiguous sub-sequences survive) and duplicate-free. -/
lemma remove_subassemblies_spec (l : List Asm) :
    (∀ z ∈ remove_subassemblies l, z ∈ l)
    ∧ (∀ x ∈ remove_subassemblies l, ∀ y ∈ remove_subassemblies l,
        is_sublist x y = true → x = y)
    ∧ (remove_subassemblies l).Nodup := by
  haveI hTot : IsTotal Asm (fun x y => y.length ≤ x.length) :=
    ⟨fun a b => Nat.le_total b.length a.length⟩
  haveI hTrans : IsTrans Asm (fun x y => y.length ≤ x.length) :=
    ⟨fun _ _ _ h1 h2 => le_trans h2 h1⟩
  have hsorted : (List.insertionSort (fun x y => y.length ≤ x.length) l).Sorted
      (fun x y => y.length ≤ x.length) :=
    List.sorted_insertionSort _ l
  have spec := remove_go_spec (List.insertionSort (fun x y => y.length ≤ x.length) l) []
    (by simp) (by simp) hsorted (by simp)
  refine ⟨fun z hz => ?_, spec.2.1, spec.2.2⟩
  rcases spec.1 z hz with h | h
  · simp at h
  · exact (List.perm_insertionSort _ l).subset h

/-- Members of a successful validation filter come from the candidate list and were
answered `True` by `validate_assembly`. -/
lemma filterValid_mem (a : Assembly) :
    ∀ (cs out : List Asm), filterValid a cs = some out →
      ∀ x ∈ out, x ∈ cs ∧ validate_assembly a x = some true := by
  intro cs
  induction cs with
  | nil =>
    intro out h x hx
    simp only [filterValid] at h
    cases h
    simp at hx
  | cons c rest ih =>
    intro out h x hx
    cases hv : validate_assembly a c with
    | none => simp [filterValid, hv] at h
    | some b =>
      cases hr : filterValid a rest with
      | none => simp [filterValid, hv, hr] at h
      | some rs =>
        simp only [filterValid, hv, hr] at h
        cases h
        cases b with
        | true =>
          rcases List.mem_cons.mp (by simpa using hx) with rfl | hx2
          · exact ⟨List.mem_cons_self _ _, hv⟩
          · obtain ⟨hm, hval⟩ := ih rs hr x hx2
            exact ⟨List.mem_cons_of_mem _ hm, hval⟩
        | false =>
          obtain ⟨hm, hval⟩ := ih rs hr x (by simpa using hx)
          exact ⟨List.mem_cons_of_mem _ hm, hval⟩

/-- Both consecutive-pair lists draw their components from the candidate itself. -/
lemma edge_pairs_mem (asm : Asm) :
    ∀ p ∈ edge_pairs asm, p.1 ∈ asm ∧ p.2 ∈ asm := by
  intro p hp
  unfold edge_pairs at hp
  by_cases hc : is_circular_asm asm = true
  · rw [if_pos hc] at hp
    obtain ⟨h1, h2⟩ := List.of_mem_zip (by exact hp)
    refine ⟨h1, ?_⟩
    rcases List.mem_append.mp h2 with h | h
    · exact List.mem_of_mem_drop h
    · exact List.mem_of_mem_take h
  · rw [if_neg hc] at hp
    obtain ⟨h1, h2⟩ := List.of_mem_zip (by exact hp)
    exact ⟨h1, List.mem_of_mem_drop h2⟩

/-- Claim C9 (amended): `validate_assembly` returns a boolean on every candidate whose
edge triples are all present in the graph with nonempty location parts, and
`remove_subassemblies` returns, for every input list, a sublist of that input,
signalling no error. -/
theorem claim_C9 (a : Assembly) (asm : Asm) (l : List Asm)
    (hpres : ∀ e ∈ asm, e ∈ a.G.edges)
    (hparts : ∀ e ∈ asm, (e.2.2.1 : Loc) ≠ [] ∧ (e.2.2.2 : Loc) ≠ []) :
    (∃ b, validate_assembly a asm = some b)
    ∧ (∀ x ∈ remove_subassemblies l, x ∈ l) := by
  refine ⟨?_, (remove_subassemblies_spec l).1⟩
  by_cases hnil : asm = []
  · subst hnil
    exact ⟨false, rfl⟩
  by_cases hcount : countGuard a asm
  · refine ⟨false, ?_⟩
    unfold validate_assembly
    rw [if_neg (by simpa [List.isEmpty_iff] using hnil), if_pos hcount]
  · rw [validate_assembly_eq_check a asm hnil hcount]
    apply check_pairs_total
    intro p hp
    obtain ⟨h1, h2⟩ := edge_pairs_mem asm p hp
    refine ⟨hpres _ h1, hpres _ h2, ?_, ?_⟩
    · rw [List.getLast?_isSome]
      exact (hparts _ h1).2
    · rw [List.head?_isSome]
      exact (hparts _ h2).1

/-- Witness for claim C9 at a concrete in-graph candidate and list. -/
theorem claim_C9_witness :
    (∃ b, validate_assembly exAsm [(1, 2, k12), (2, 3, k23)] = some b)
    ∧ (∀ x ∈ remove_subassemblies [[((1 : Int), (2 : Int), k12)], []], x ∈
        [[((1 : Int), (2 : Int), k12)], []]) :=
  claim_C9 exAsm [(1, 2, k12), (2, 3, k23)] [[((1 : Int), (2 : Int), k12)], []]
    (by decide) (by decide)

/-- Claim C10: the assemblies returned by `get_linear_assemblies` are pairwise
distinct, because `is_sublist` holds for a list compared with itself, so an exact
duplicate of a kept candidate is never appended. -/
theorem claim_C10 :
    (∀ l : Asm, is_sublist l l = true)
    ∧ (∀ (a : Assembly) (out : List Asm), get_linear_assemblies a = some out →
        out.Nodup) := by
  refine ⟨fun l => is_sublist_self l, ?_⟩
  intro a out h
  unfold get_linear_assemblies at h
  obtain ⟨valid, hvalid, hout⟩ := Option.map_eq_some'.mp h
  rw [← hout]
  exact (remove_subassemblies_spec valid).2.2

/-- Witness for claim C10 at the example Assembly. -/
theorem claim_C10_witness : exLinear.Nodup :=
  claim_C10.2 exAsm exLinear (by decide)

/-- Claim C3: every assembly returned by `get_linear_assemblies` or
`get_circular_assemblies` is answered `True` by `validate_assembly`, and no linear
result is a strict contiguous sub-sequence of another result of the same call
(containment between results forces equality). -/
theorem claim_C3 :
    (∀ (a : Assembly) (out : List Asm), get_linear_assemblies a = some out →
      ∀ x ∈ out, validate_assembly a x = some true
        ∧ ∀ y ∈ out, is_sublist x y = true → x = y)
    ∧ (∀ (a : Assembly) (out : List Asm), get_circular_assemblies a = some out →
        ∀ x ∈ out, validate_assembly a x = some true) := by
  constructor
  · intro a out h x hx
    unfold get_linear_assemblies at h
    obtain ⟨valid, hvalid, hout⟩ := Option.map_eq_some'.mp h
    subst hout
    refine ⟨?_, (remove_subassemblies_spec valid).2.1 x hx⟩
    have hin : x ∈ valid := (remove_subassemblies_spec valid).1 x hx
    exact (filterValid_mem a _ _ hvalid x hin).2
  · intro a out h x hx
    unfold get_circular_assemblies at h
    exact (filterValid_mem a _ _ h x hx).2

/-- Witness for claim C3: the first documented linear assembly of the example passes
validation and is contained in no other returned assembly. -/
theorem claim_C3_witness :
    validate_assembly exAsm asmABC = some true
      ∧ ∀ y ∈ exLinear, is_sublist asmABC y = true → asmABC = y :=
  claim_C3.1 exAsm exLinear (by decide) asmABC (by decide)

/-- `minAbsVal` bounds the absolute value of every member. -/
lemma minAbsVal_le (l : List Int) : ∀ y ∈ l, minAbsVal l ≤ y.natAbs := by
  induction l with
  | nil => simp
  | cons x xs ih =>
    intro y hy
    cases xs with
    | nil =>
      have : y = x := by simpa using hy
      subst this
      simp [minAbsVal]
    | cons a as =>
      rcases List.mem_cons.mp hy with rfl | hy2
      · exact le_trans (Nat.min_le_left _ _) (le_refl _)
      · exact le_trans (Nat.min_le_right _ _) (ih y hy2)

/-- The minimal-absolute-value index is in range. -/
lemma minAbsIdx_lt (l : List Int) (h : l ≠ []) : minAbsIdx l < l.length := by
  induction l with
  | nil => exact absurd rfl h
  | cons x xs ih =>
    cases xs with
    | nil => simp [minAbsIdx]
    | cons a as =>
      by_cases hc : x.natAbs ≤ minAbsVal (a :: as)
      · simp [minAbsIdx, hc]
      · have := ih (by simp)
        simp only [minAbsIdx, if_neg hc]
        simpa [Nat.succ_lt_succ_iff] using this

/-- The element at the minimal-absolute-value index realizes `minAbsVal`. -/
lemma get_minAbsIdx (l : List Int) (h : l ≠ []) :
    (l.get ⟨minAbsIdx l, minAbsIdx_lt l h⟩).natAbs = minAbsVal l := by
  induction l with
  | nil => exact absurd rfl h
  | cons x xs ih =>
    cases xs with
    | nil => simp [minAbsIdx, minAbsVal]
    | cons a as =>
      by_cases hc : x.natAbs ≤ minAbsVal (a :: as)
      · simp only [minAbsIdx, if_pos hc]
        show x.natAbs = minAbsVal (x :: a :: as)
        have : minAbsVal (x :: a :: as) = min x.natAbs (minAbsVal (a :: as)) := rfl
        rw [this, Nat.min_eq_left hc]
      · simp only [minAbsIdx, if_neg hc]
        show ((a :: as).get ⟨minAbsIdx (a :: as), _⟩).natAbs = minAbsVal (x :: a :: as)
        have h2 : minAbsVal (x :: a :: as) = min x.natAbs (minAbsVal (a :: as)) := rfl
        rw [h2, Nat.min_eq_right (le_of_lt (lt_of_not_le hc))]
        exact ih (by simp)

/-- `circular_permutation_min_abs` of a nonempty list starts with an element of
minimal absolute value and is membership-equivalent to the input. -/
lemma circular_permutation_spec (l : List Int) (h : l ≠ []) :
    ∃ h0 t, circular_permutation_min_abs l = h0 :: t
      ∧ (∀ y ∈ l, h0.natAbs ≤ y.natAbs)
      ∧ (∀ y ∈ circular_permutation_min_abs l, y ∈ l) := by
  have hi : minAbsIdx l < l.length := minAbsIdx_lt l h
  have hdrop : (l.drop (minAbsIdx l)).length = l.length - minAbsIdx l := List.length_drop _ _
  have hpos : 0 < (l.drop (minAbsIdx l)).length := by omega
  obtain ⟨h0, t0, hdt⟩ := List.exists_cons_of_ne_nil (List.ne_nil_of_length_pos hpos)
  have hhead : (l.drop (minAbsIdx l)).head? = some (l.get ⟨minAbsIdx l, hi⟩) := by
    rw [List.head?_drop]
    exact List.getElem?_eq_getElem hi
  rw [hdt] at hhead
  have hh0 : h0 = l.get ⟨minAbsIdx l, hi⟩ := by simpa using hhead
  refine ⟨h0, t0 ++ l.take (minAbsIdx l), ?_, ?_, ?_⟩
  · show l.drop (minAbsIdx l) ++ l.take (minAbsIdx l) = h0 :: (t0 ++ l.take (minAbsIdx l))
    rw [hdt]
    rfl
  · intro y hy
    rw [hh0, get_minAbsIdx l h]
    exact minAbsVal_le l y hy
  · intro y hy
    unfold circular_permutation_min_abs at hy
    rcases List.mem_append.mp hy with hm | hm
    · exact List.mem_of_mem_drop hm
    · exact List.mem_of_mem_take hm

/-- Membership in `listProd` picks one element from each component list. -/
lemma listProd_mem {α : Type} :
    ∀ (Ls : List (List α)) (asm : List α), asm ∈ listProd Ls →
      List.Forall₂ (fun x xs => x ∈ xs) asm Ls := by
  intro Ls
  induction Ls with
  | nil =>
    intro asm h
    simp only [listProd, List.mem_singleton] at h
    subst h
    exact List.Forall₂.nil
  | cons xs rest ih =>
    intro asm h
    simp only [listProd] at h
    obtain ⟨x, hx, hmap⟩ := List.mem_flatMap.mp h
    obtain ⟨t, ht, rfl⟩ := List.mem_map.mp hmap
    exact List.Forall₂.cons hx (ih t ht)

/-- `Forall₂` transfers to the last elements of two related nonempty lists. -/
lemma forall2_getLast {α β : Type} {R : α → β → Prop} :
    ∀ {l1 : List α} {l2 : List β}, List.Forall₂ R l1 l2 →
      ∀ (h1 : l1 ≠ []) (h2 : l2 ≠ []), R (l1.getLast h1) (l2.getLast h2) := by
  intro l1 l2 hf
  induction hf with
  | nil => intro h1 _; exact absurd rfl h1
  | @cons a b l1' l2' hR hrest ih =>
    intro h1 h2
    cases l1' with
    | nil =>
      cases hrest
      simpa using hR
    | cons c cs =>
      have h2' : l2' ≠ [] := by
        intro hnil
        subst hnil
        cases hrest
      rw [List.getLast_cons (by simp), List.getLast_cons h2']
      exact ih (by simp) h2'

/-- `Forall₂` provides a related partner for every member of the left list. -/
lemma forall2_mem_left {α β : Type} {R : α → β → Prop} :
    ∀ {l1 : List α} {l2 : List β}, List.Forall₂ R l1 l2 →
      ∀ x ∈ l1, ∃ y ∈ l2, R x y := by
  intro l1 l2 hf
  induction hf with
  | nil => intro x hx; simp at hx
  | cons hR _ ih =>
    intro x hx
    rcases List.mem_cons.mp hx with rfl | hx2
    · exact ⟨_, List.mem_cons_self _ _, hR⟩
    · obtain ⟨y, hy, hxy⟩ := ih x hx2
      exact ⟨y, List.mem_cons_of_mem _ hy, hxy⟩

/-- The last entry of the zip of two equally long lists pairs their last elements. -/
lemma zip_getLast? {α β : Type} :
    ∀ (l1 : List α) (l2 : List β), l1.length = l2.length →
      ∀ x y, l1.getLast? = some x → l2.getLast? = some y →
        (l1.zip l2).getLast? = some (x, y) := by
  intro l1
  induction l1 with
  | nil => intro l2 _ x y hx; simp at hx
  | cons a l1' ih =>
    intro l2 hlen x y hx hy
    cases l2 with
    | nil => simp at hy
    | cons b l2' =>
      cases l1' with
      | nil =>
        cases l2' with
        | nil =>
          simp only [List.getLast?_singleton] at hx hy
          cases Option.some.inj hx
          cases Option.some.inj hy
          rfl
        | cons c cs => simp at hlen
      | cons c cs =>
        cases l2' with
        | nil => simp at hlen
        | cons d ds =>
          have hlen' : (c :: cs).length = (d :: ds).length := by simpa using hlen
          rw [List.getLast?_cons_cons] at hx hy
          have := ih (d :: ds) hlen' x y hx hy
          rw [show (a :: c :: cs).zip (b :: d :: ds)
              = (a, b) :: (c :: cs).zip (d :: ds) from rfl]
          rw [show (c :: cs).zip (d :: ds) = (c, d) :: cs.zip ds from rfl] at this ⊢
          rw [List.getLast?_cons_cons]
          exact this

/-- Every cycle reported by `simple_cycles` is nonempty. -/
lemma simple_cycles_ne_nil (g : MultiDiGraph) : ∀ c ∈ simple_cycles g, c ≠ [] := by
  intro c hc
  unfold simple_cycles at hc
  obtain ⟨i, _, hmem⟩ := List.mem_flatMap.mp hc
  cases hget : (g.nodes.map (·.1)).get? i with
  | none => rw [hget] at hmem; simp at hmem
  | some s =>
    rw [hget] at hmem
    obtain ⟨p, _, rfl⟩ := List.mem_map.mp hmem
    simp

/-- Claim C4: every assembly returned by `get_circular_assemblies` is a closed cycle —
its first edge's source equals its last edge's target — whose first node is
positive and of smallest absolute value among all nodes appearing in the cycle. -/
theorem claim_C4 (a : Assembly) (out : List Asm) (asm : Asm)
    (h : get_circular_assemblies a = some out) (hm : asm ∈ out) :
    ∃ e0 rest eL, asm = e0 :: rest ∧ asm.getLast? = some eL ∧ eL.2.1 = e0.1
      ∧ 0 < e0.1
      ∧ ∀ e ∈ asm, e0.1.natAbs ≤ e.1.natAbs ∧ e0.1.natAbs ≤ e.2.1.natAbs := by
  unfold get_circular_assemblies at h
  obtain ⟨hc, _⟩ := filterValid_mem a _ _ h asm hm
  obtain ⟨c, hckept, hasm⟩ := List.mem_flatMap.mp hc
  have hcmem := (List.mem_filter.mp hckept).1
  have hcpred := (List.mem_filter.mp hckept).2
  obtain ⟨c0, hc0mem, rfl⟩ := List.mem_map.mp hcmem
  have hc0ne : c0 ≠ [] := simple_cycles_ne_nil a.G c0 hc0mem
  obtain ⟨h0, t, hrot, hmin, hsub⟩ := circular_permutation_spec c0 hc0ne
  have hpos : 0 < h0 := by
    rw [hrot] at hcpred
    simpa using hcpred
  rw [hrot] at hasm hsub
  unfold cycle2circular_assemblies at hasm
  have hfa := listProd_mem _ _ hasm
  rw [List.forall₂_map_right_iff] at hfa
  have hfa2 : List.Forall₂ (fun (e : Edge3) (p : Int × Int) => e.1 = p.1 ∧ e.2.1 = p.2) asm
      ((h0 :: t).zip (t ++ [h0])) := by
    refine hfa.imp ?_
    intro e p he
    obtain ⟨k, _, rfl⟩ := List.mem_map.mp he
    exact ⟨rfl, rfl⟩
  have hnodes : ∀ e ∈ asm, e.1.natAbs ≥ h0.natAbs → True := fun _ _ _ => trivial
  have hbound : ∀ e ∈ asm, h0.natAbs ≤ e.1.natAbs ∧ h0.natAbs ≤ e.2.1.natAbs := by
    intro e he
    obtain ⟨p, hp, hep1, hep2⟩ := forall2_mem_left hfa2 e he
    obtain ⟨hp1, hp2⟩ := List.of_mem_zip hp
    have hp2' : p.2 ∈ h0 :: t := by
      rcases List.mem_append.mp hp2 with hm2 | hm2
      · exact List.mem_cons_of_mem _ hm2
      · have : p.2 = h0 := by simpa using hm2
        rw [this]
        exact List.mem_cons_self _ _
    constructor
    · rw [hep1]
      exact hmin p.1 (hsub p.1 hp1)
    · rw [hep2]
      exact hmin p.2 (hsub p.2 hp2')
  obtain ⟨b2, t2, hbt⟩ := List.exists_cons_of_ne_nil (show t ++ [h0] ≠ [] by simp)
  have hlen : (h0 :: t).length = (t ++ [h0]).length := by simp
  have hzne : (h0 :: t).zip (t ++ [h0]) ≠ [] := by
    rw [hbt]
    simp
  have hplast : ((h0 :: t).zip (t ++ [h0])).getLast? = some ((h0 :: t).getLast (by simp), h0) := by
    apply zip_getLast? _ _ hlen
    · exact List.getLast?_eq_getLast _ _
    · exact List.getLast?_concat t
  have hplast2 : ((h0 :: t).zip (t ++ [h0])).getLast hzne = ((h0 :: t).getLast (by simp), h0) := by
    have h' := List.getLast?_eq_getLast ((h0 :: t).zip (t ++ [h0])) hzne
    rw [h'] at hplast
    exact Option.some.inj hplast
  have hP : (h0 :: t).zip (t ++ [h0]) = (h0, b2) :: t.zip t2 := by
    rw [hbt]
    rfl
  rw [hP] at hfa2
  cases hfa2 with
  | @cons e0 p l1' l2' hR hrest =>
    have he0 : e0.1 = h0 := hR.1
    have hasmne : e0 :: l1' ≠ [] := by simp
    have hfa3 : List.Forall₂ (fun (e : Edge3) (p : Int × Int) => e.1 = p.1 ∧ e.2.1 = p.2)
        (e0 :: l1') ((h0, b2) :: t.zip t2) := List.Forall₂.cons hR hrest
    have hzne2 : ((h0, b2) :: t.zip t2) ≠ [] := by simp
    have hRlast := forall2_getLast hfa3 hasmne hzne2
    have hplast3 : ((h0, b2) :: t.zip t2).getLast hzne2 = ((h0 :: t).getLast (by simp), h0) := by
      rw [← hplast2]
      congr 1
      exact hP.symm
    rw [hplast3] at hRlast
    refine ⟨e0, l1', (e0 :: l1').getLast hasmne, rfl, List.getLast?_eq_getLast _ _, ?_, ?_, ?_⟩
    · rw [hRlast.2, he0]
    · rw [he0]
      exact hpos
    · rw [he0]
      exact hbound

/-- Witness for claim C4 at the example Assembly's unique circular result. -/
theorem claim_C4_witness :
    ∃ e0 rest eL, asmCirc = e0 :: rest ∧ asmCirc.getLast? = some eL ∧ eL.2.1 = e0.1
      ∧ 0 < e0.1
      ∧ ∀ e ∈ asmCirc, e0.1.natAbs ≤ e.1.natAbs ∧ e0.1.natAbs ≤ e.2.1.natAbs :=
  claim_C4 exAsm exCircular asmCirc (by decide) (by decide)

/-- An `omap` success preserves length. -/
lemma omap_length {α β : Type} (f : α → Option β) :
    ∀ (l : List α) (l' : List β), omap f l = some l' → l'.length = l.length := by
  intro l
  induction l with
  | nil =>
    intro l' h
    simp only [omap] at h
    cases h
    rfl
  | cons x xs ih =>
    intro l' h
    cases hfx : f x with
    | none => simp [omap, hfx] at h
    | some y =>
      cases hrest : omap f xs with
      | none => simp [omap, hfx, hrest] at h
      | some ys =>
        simp only [omap, hfx, hrest] at h
        cases h
        simp [ih ys hrest]

/-- An `omap` success on a cons decomposes. -/
lemma omap_cons {α β : Type} (f : α → Option β) (x : α) (xs : List α) (out : List β)
    (h : omap f (x :: xs) = some out) :
    ∃ y ys, f x = some y ∧ omap f xs = some ys ∧ out = y :: ys := by
  cases hfx : f x with
  | none => simp [omap, hfx] at h
  | some y =>
    cases hrest : omap f xs with
    | none => simp [omap, hfx, hrest] at h
    | some ys =>
      simp only [omap, hfx, hrest] at h
      cases h
      exact ⟨y, ys, rfl, rfl, rfl⟩

/-- Length of the Python suffix slice `s[o:]` for an in-range nonnegative start. -/
lemma pySlice_from_length (s : List Char) (o : Int) (h0 : 0 ≤ o) (hle : o ≤ (s.length : Int)) :
    ((pySlice s o none).length : Int) = (s.length : Int) - o := by
  have hnneg : ¬o < 0 := not_lt.mpr h0
  simp only [pySlice, pyIdx, if_neg hnneg, List.take_length, List.length_drop]
  omega

/-- Length of the Python trim slice `s[:-o]` for `1 ≤ o ≤ len(s)`. -/
lemma pySlice_trim_length (s : List Char) (o : Int) (h1 : 1 ≤ o) (hle : o ≤ (s.length : Int)) :
    ((pySlice s 0 (some (-o))).length : Int) = (s.length : Int) - o := by
  have hneg : -o < 0 := by omega
  have h00 : ¬(0 : Int) < 0 := by omega
  simp only [pySlice, pyIdx, if_neg h00, if_pos hneg, List.length_drop, List.length_take]
  omega

/-- Length evolution of the joining fold of `assemble`: whenever every joined
subfragment is at least as long as its (nonnegative) overlap, each step grows the
output by exactly the subfragment length minus the overlap. -/
lemma joinFold_length :
    ∀ (ps : List (Dseqrecord × Int)) (init : Dseqrecord),
      (∀ p ∈ ps, 0 ≤ p.2 ∧ p.2 ≤ (p.1.seq.length : Int)) →
      (((ps.foldl joinStep init).seq.length : Int))
        = (init.seq.length : Int) + (ps.map (fun p => (p.1.seq.length : Int) - p.2)).sum := by
  intro ps
  induction ps with
  | nil => intro init _; simp
  | cons p ps ih =>
    intro init hok
    obtain ⟨h0, hle⟩ := hok p (List.mem_cons_self _ _)
    have hstep : (((joinStep init p).seq.length : Int))
        = (init.seq.length : Int) + ((p.1.seq.length : Int) - p.2) := by
      simp only [joinStep, List.length_append]
      have := pySlice_from_length p.1.seq p.2 h0 hle
      push_cast
      omega
    simp only [List.foldl_cons, List.map_cons, List.sum_cons]
    rw [ih (joinStep init p) (fun q hq => hok q (List.mem_cons_of_mem _ hq)), hstep]
    ring

/-- Splitting the sum over a zip into the two component sums. -/
lemma zip_sum_split :
    ∀ (l1 : List Dseqrecord) (l2 : List Int), l1.length ≤ l2.length →
      ((l1.zip l2).map (fun p => (p.1.seq.length : Int) - p.2)).sum
        = (l1.map (fun s => (s.seq.length : Int))).sum - (l2.take l1.length).sum := by
  intro l1
  induction l1 with
  | nil => intro l2 _; simp
  | cons s l1' ih =>
    intro l2 hlen
    cases l2 with
    | nil => simp at hlen
    | cons o l2' =>
      have hlen' : l1'.length ≤ l2'.length := by simpa using hlen
      simp only [List.zip_cons_cons, List.map_cons, List.sum_cons]
      rw [ih l2' hlen']
      rw [show (s :: l1').length = l1'.length + 1 from rfl, List.take_succ_cons, List.sum_cons]
      ring

/-- `take (length - 1)` is `dropLast`. -/
lemma take_pred_eq_dropLast {α : Type} : ∀ l : List α, l.take (l.length - 1) = l.dropLast := by
  intro l
  induction l with
  | nil => rfl
  | cons x xs ih =>
    cases xs with
    | nil => rfl
    | cons y ys =>
      have hlen2 : (x :: y :: ys).length - 1 = ys.length + 1 := by simp
      rw [hlen2, List.take_succ_cons, List.dropLast_cons₂]
      have ih2 : List.take ys.length (y :: ys) = (y :: ys).dropLast := by
        have h3 : (y :: ys).length - 1 = ys.length := by simp
        rw [← h3]
        exact ih
      rw [ih2]

/-- A successful entry determines its three components. -/
lemma subfragEntry_some (g : MultiDiGraph) (p : OptE × OptE) (y : SubFragRepr)
    (h : subfragEntry g p = some y) :
    subfragSide1 g p.1 = some y.2.1 ∧ subfragSide2 g p.2 = some y.2.2
      ∧ p.1.2.1 = some y.1 := by
  unfold subfragEntry at h
  cases h1 : subfragSide1 g p.1 with
  | none => rw [h1] at h; simp at h
  | some sl =>
    rw [h1] at h
    cases h2 : subfragSide2 g p.2 with
    | none => rw [h2] at h; simp at h
    | some el =>
      rw [h2] at h
      cases h3 : p.1.2.1 with
      | none => rw [h3] at h; simp at h
      | some node =>
        rw [h3] at h
        cases h
        exact ⟨by simp [h1], by simp [h2], by simp [h3]⟩

/-- Shape of a successful subfragment representation: the candidate is nonempty, the
representation has one entry per fragment visited (edge count for circular, one
more for linear), and its first entry has a left overlap exactly when the candidate
is circular. -/
lemma edge_repr_cases (a : Assembly) (asm : Asm) (frs : List SubFragRepr)
    (h : edge_representation2subfragment_representation a asm = some frs) :
    asm ≠ []
    ∧ frs.length = asm.length + (if is_circular_asm asm then 0 else 1)
    ∧ ∀ f ∈ frs.head?, f.2.1.isSome = is_circular_asm asm := by
  cases asm with
  | nil => simp [edge_representation2subfragment_representation] at h
  | cons e rest =>
    simp only [edge_representation2subfragment_representation] at h
    refine ⟨by simp, ?_, ?_⟩
    · have hlen := omap_length _ _ _ h
      by_cases hc : is_circular_asm (e :: rest) = true
      · rw [if_pos hc] at hlen
        rw [hlen, if_pos hc]
        simp [List.length_zip]
      · rw [if_neg hc] at hlen
        rw [hlen, if_neg hc]
        simp [List.length_zip]
    · intro f hf
      by_cases hc : is_circular_asm (e :: rest) = true
      · rw [if_pos hc] at h
        rw [hc]
        have hzip : (toOptE ((e :: rest).getLast (List.cons_ne_nil e rest))
              :: (e :: rest).map toOptE).zip
              ((toOptE ((e :: rest).getLast (List.cons_ne_nil e rest))
                :: (e :: rest).map toOptE).drop 1)
            = (toOptE ((e :: rest).getLast (List.cons_ne_nil e rest)), toOptE e)
              :: ((e :: rest).map toOptE).zip (rest.map toOptE) := rfl
        rw [hzip] at h
        obtain ⟨y, ys, hy, _, rfl⟩ := omap_cons _ _ _ _ h
        have hfy : y = f := by simpa using hf
        subst hfy
        obtain ⟨hs1, _, _⟩ := subfragEntry_some _ _ _ hy
        unfold subfragSide1 at hs1
        obtain ⟨kk, _, hkk⟩ := Option.map_eq_some'.mp hs1
        rw [← hkk]
        rfl
      · rw [if_neg hc] at h
        rw [Bool.not_eq_true] at hc
        rw [hc]
        have hzip : (((none : Option Int), some e.1, (none : Option EdgeKey))
              :: ((e :: rest).map toOptE
                ++ [(some ((e :: rest).getLast (List.cons_ne_nil e rest)).2.1, none, none)])).zip
              ((((none : Option Int), some e.1, (none : Option EdgeKey))
              :: ((e :: rest).map toOptE
                ++ [(some ((e :: rest).getLast (List.cons_ne_nil e rest)).2.1, none, none)])).drop 1)
            = (((none : Option Int), some e.1, (none : Option EdgeKey)), toOptE e)
              :: ((e :: rest).map toOptE
                  ++ [(some ((e :: rest).getLast (List.cons_ne_nil e rest)).2.1, none, none)]).zip
                 (rest.map toOptE
                  ++ [(some ((e :: rest).getLast (List.cons_ne_nil e rest)).2.1, none, none)]) := rfl
        rw [hzip] at h
        obtain ⟨y, ys, hy, _, rfl⟩ := omap_cons _ _ _ _ h
        have hfy : y = f := by simpa using hf
        subst hfy
        obtain ⟨hs1, _, _⟩ := subfragEntry_some _ _ _ hy
        unfold subfragSide1 at hs1
        have hynone : (none : Option Loc) = y.2.1 := Option.some.inj hs1
        rw [← hynone]
        rfl

/-- The sequence of a successful closing step is the trimmed sequence. -/
lemma assembleWrap_seq (trimmed : List Char) (fs : List Loc) (out : Dseqrecord)
    (h : assembleWrap trimmed fs = some out) : out.seq = trimmed := by
  cases hw : omap (wrapFeature (trimmed.length : Int)) fs with
  | none => simp [assembleWrap, hw] at h
  | some feats =>
    simp only [assembleWrap, hw] at h
    exact (congrArg Dseqrecord.seq (Option.some.inj h)).symm

/-- Claim C5 (amended): the length of the sequence produced by `assemble` equals the
sum of the subfragment lengths (the slices extracted by
`get_assembly_subfragments`) minus the sum of the overlap lengths of the
assembly's edges — the closing overlap being one of those edges for a circular
candidate — provided each joined subfragment is at least as long as its
(nonnegative) overlap and, for a circular candidate, the closing overlap is at
least 1 and at most the pre-trim length. -/
theorem claim_C5 (a : Assembly) (asm : Asm) (frs : List SubFragRepr)
    (overlaps : List Int) (subs : List Dseqrecord) (out : Dseqrecord)
    (hf : edge_representation2subfragment_representation a asm = some frs)
    (ho : overlapsOf a asm = some overlaps)
    (hs : get_assembly_subfragments a frs = some subs)
    (hout : assemble a asm = some out)
    (hfit : ∀ p ∈ (subs.drop 1).zip overlaps, 0 ≤ p.2 ∧ p.2 ≤ (p.1.seq.length : Int))
    (hclose : is_circular_asm asm = true →
      ∃ oc, overlaps.getLast? = some oc ∧ 1 ≤ oc ∧
        oc ≤ (subs.map (fun s => (s.seq.length : Int))).sum - overlaps.dropLast.sum) :
    (out.seq.length : Int)
      = (subs.map (fun s => (s.seq.length : Int))).sum - overlaps.sum := by
  obtain ⟨hne, hlfrs, hhead⟩ := edge_repr_cases a asm frs hf
  have hlov : overlaps.length = asm.length := by
    unfold overlapsOf at ho
    exact omap_length _ _ _ ho
  have hlsubs : subs.length = frs.length := by
    unfold get_assembly_subfragments at hs
    exact omap_length _ _ _ hs
  cases subs with
  | nil => simp [assemble, hf, ho, hs] at hout
  | cons s0 stail =>
  cases frs with
  | nil => simp at hlsubs
  | cons f ftail =>
  simp only [assemble, hf, ho, hs, List.drop_succ_cons, List.drop_zero] at hout
  have hfhead : f.2.1.isSome = is_circular_asm asm := hhead f rfl
  cases hf21 : f.2.1 with
  | none =>
    have hcirc : is_circular_asm asm = false := by rw [← hfhead, hf21]; rfl
    simp only [hf21] at hout
    have hout2 : (stail.zip overlaps).foldl joinStep { s0 with circular := false } = out :=
      Option.some.inj hout
    have hstl : stail.length = overlaps.length := by
      simp only [hcirc, if_false, Bool.false_eq_true, List.length_cons] at hlfrs
      simp only [List.length_cons] at hlsubs
      omega
    have hfold := joinFold_length (stail.zip overlaps) { s0 with circular := false } hfit
    rw [hout2] at hfold
    have hsplit := zip_sum_split stail overlaps (le_of_eq hstl)
    rw [hstl, List.take_length] at hsplit
    rw [hfold, hsplit]
    simp only [List.map_cons, List.sum_cons]
    show (s0.seq.length : Int) + _ = _
    ring
  | some loc0 =>
    have hcirc : is_circular_asm asm = true := by rw [← hfhead, hf21]; rfl
    obtain ⟨oc, hoc, hoc1, hocle⟩ := hclose hcirc
    simp only [hf21, hoc] at hout
    have hseq := assembleWrap_seq _ _ _ hout
    have hstl : stail.length + 1 = overlaps.length := by
      simp only [hcirc, if_true, List.length_cons] at hlfrs
      simp only [List.length_cons] at hlsubs
      omega
    have hfold := joinFold_length (stail.zip overlaps) { s0 with circular := false } hfit
    have hsplit := zip_sum_split stail overlaps (by omega)
    rw [show stail.length = overlaps.length - 1 by omega, take_pred_eq_dropLast] at hsplit
    rw [hsplit] at hfold
    have hJ : ((((stail.zip overlaps).foldl joinStep
          { s0 with circular := false }).seq.length : Int))
        = ((s0 :: stail).map (fun s => (s.seq.length : Int))).sum - overlaps.dropLast.sum := by
      rw [hfold]
      simp only [List.map_cons, List.sum_cons]
      show ((s0.seq.length : Int)) + _ = _
      ring
    have hsum : overlaps.sum = overlaps.dropLast.sum + oc := by
      have happ := List.dropLast_append_getLast? oc hoc
      calc overlaps.sum = (overlaps.dropLast ++ [oc]).sum := by rw [happ]
        _ = overlaps.dropLast.sum + oc := by simp
    have htrim := pySlice_trim_length
      (((stail.zip overlaps).foldl joinStep { s0 with circular := false }).seq) oc hoc1
      (by rw [hJ]; exact hocle)
    rw [hseq, htrim, hJ, hsum]
    ring

/-- Claim C5 counterexample: for the returned linear assembly joining the three example
fragments, `assemble` produces 34 symbols, while the sum of the input fragment
lengths of the fragments used (14 + 17 + 18) minus the sum of the overlap lengths
of the assembly's edges (6 + 7) is 36 — the produced length instead tracks the
subfragment lengths, which exclude the bases of each fragment lying before its
left overlap or after its right overlap. -/
theorem claim_C5_counterexample :
    get_linear_assemblies exAsm = some exLinear
    ∧ asmABC ∈ exLinear
    ∧ (assemble exAsm asmABC).map (fun r => (r.seq.length : Int)) = some 34
    ∧ (fragA.seq.length : Int) + (fragB.seq.length : Int) + (fragC.seq.length : Int)
        - (locLen k12.2 + locLen k23.2) = 36
    ∧ (34 : Int) ≠ 36 :=
  ⟨by decide, by decide, by decide, by decide, by decide⟩

/-- The subfragment representation of the example assembly. -/
def exFrs : List SubFragRepr :=
  (edge_representation2subfragment_representation exAsm asmABC).getD []

/-- The overlap lengths of the example assembly. -/
def exOverlaps : List Int := (overlapsOf exAsm asmABC).getD []

/-- The subfragments of the example assembly. -/
def exSubs : List Dseqrecord := (get_assembly_subfragments exAsm exFrs).getD []

/-- The record materialized from the example assembly. -/
def exOut : Dseqrecord := (assemble exAsm asmABC).getD ⟨[], false, []⟩

/-- Witness for the amended claim C5: 34 = (14 + 16 + 17) - (6 + 7) on the example. -/
theorem claim_C5_witness :
    (exOut.seq.length : Int)
      = (exSubs.map (fun s => (s.seq.length : Int))).sum - exOverlaps.sum :=
  claim_C5 exAsm asmABC exFrs exOverlaps exSubs exOut (by decide) (by decide) (by decide)
    (by decide) (by decide) (fun hcirc => absurd hcirc (by decide))
